import Mathlib

/-!
Verification of the availability / event-matching core of the planning-agent
repository (src/src/agentkit/tools.py and src/src/agent/agentkit/tools.py).

Modelling conventions:

* Python strings are embedded as `List Char` (named `Str`).  Python compares
  strings lexicographically by code point; `strLt` below is exactly that
  comparison, `strLe a b` is Python's `a <= b` (equivalently `not (b < a)`
  for a total order), and `smax`/`smin` mirror Python's `max`/`min` on two
  arguments (which return the *first* argument on ties).
* Python's `sorted(xs, key=f)` is a stable ascending sort by the key; the
  stable insertion sort `sortByKey` below is extensionally equal to it.
* Python dicts are embedded as association lists in insertion order
  (`alookup`, `setdefaultAppend`); Python sets of strings as `Finset Str`.
  Iteration over a Python `set` has unspecified order; the few places that
  iterate over a set intersection of dict keys are modelled by iterating the
  first dict's keys filtered by membership in the second, which produces the
  same key/value content.
* The sqlite `busy_hours` table is embedded as a list of
  `(telegram_id, start, duration)` rows in insertion order.
* Chroma similarity scores are Python floats; they are modelled as `ℚ`.
  `round(x, 4)` is modelled as `round4` (floor of `x·10⁴ + 1/2`, divided by
  `10⁴`); the claims proved about scores only use order comparisons.
-/

namespace Planner

/-- A Python string: a list of characters, compared by code point. -/
abbrev Str := List Char

/-- An interval `[start, end]` of `"HH:MM"` time strings. -/
abbrev Ivl := Str × Str

/-- Python's lexicographic `<` on strings. -/
def strLt : Str → Str → Bool
  | _, [] => false
  | [], _ :: _ => true
  | a :: as, b :: bs => if a < b then true else if b < a then false else strLt as bs

/-- Python's `<=` on strings (total order, so `a <= b` iff `not (b < a)`). -/
def strLe (a b : Str) : Bool := !strLt b a

/-- Python's `max(a, b)` on strings: the second argument only if it is strictly
greater. -/
def smax (a b : Str) : Str := if strLt a b then b else a

/-- Python's `min(a, b)` on strings: the second argument only if it is strictly
smaller. -/
def smin (a b : Str) : Str := if strLt b a then b else a

theorem strLt_nil_right (a : Str) : strLt a [] = false := by
  cases a <;> rfl

theorem strLt_irrefl (a : Str) : strLt a a = false := by
  induction a with
  | nil => rfl
  | cons x xs ih => simp [strLt, ih]

theorem strLt_trans {a b c : Str} (hab : strLt a b = true) (hbc : strLt b c = true) :
    strLt a c = true := by
  induction a generalizing b c with
  | nil =>
    cases b with
    | nil => simp [strLt] at hab
    | cons y ys =>
      cases c with
      | nil => simp [strLt_nil_right] at hbc
      | cons z zs => simp [strLt]
  | cons x xs ih =>
    cases b with
    | nil => simp [strLt_nil_right] at hab
    | cons y ys =>
      cases c with
      | nil => simp [strLt_nil_right] at hbc
      | cons z zs =>
        simp only [strLt] at hab hbc ⊢
        by_cases h1 : x < y
        · by_cases h2 : y < z
          · simp [lt_trans h1 h2]
          · simp only [if_neg h2] at hbc
            by_cases h3 : z < y
            · simp [h3] at hbc
            · have hyz : y = z := le_antisymm (not_lt.mp h3) (not_lt.mp h2)
              subst hyz
              simp [h1]
        · simp only [if_neg h1] at hab
          by_cases h1' : y < x
          · simp [h1'] at hab
          · have hxy : x = y := le_antisymm (not_lt.mp h1') (not_lt.mp h1)
            simp only [if_neg h1'] at hab
            subst hxy
            by_cases h2 : x < z
            · simp [h2]
            · simp only [if_neg h2] at hbc ⊢
              by_cases h3 : z < x
              · simp [h3] at hbc
              · simp only [if_neg h3] at hbc ⊢
                exact ih hab hbc

theorem strLt_asymm {a b : Str} (h : strLt a b = true) : strLt b a = false := by
  by_contra hc
  have hba : strLt b a = true := by
    cases hx : strLt b a with
    | false => exact absurd hx hc
    | true => rfl
  have := strLt_trans h hba
  rw [strLt_irrefl] at this
  exact Bool.false_ne_true this

theorem eq_of_not_lt_not_lt {a b : Str} (h1 : strLt a b = false) (h2 : strLt b a = false) :
    a = b := by
  induction a generalizing b with
  | nil =>
    cases b with
    | nil => rfl
    | cons y ys => simp [strLt] at h1
  | cons x xs ih =>
    cases b with
    | nil => simp [strLt] at h2
    | cons y ys =>
      simp only [strLt] at h1 h2
      by_cases hxy : x < y
      · simp [hxy] at h1
      · simp only [if_neg hxy] at h1
        by_cases hyx : y < x
        · simp [hyx] at h2
        · simp only [if_neg hyx] at h2
          have hx : x = y := le_antisymm (not_lt.mp hyx) (not_lt.mp hxy)
          subst hx
          simp only [lt_irrefl, if_neg (lt_irrefl x)] at h1 h2
          rw [ih h1 h2]

theorem lt_or_eq_of_not_lt {a b : Str} (h : strLt b a = false) :
    strLt a b = true ∨ a = b := by
  cases hab : strLt a b with
  | true => exact Or.inl rfl
  | false => exact Or.inr (eq_of_not_lt_not_lt hab h)

theorem strLe_refl (a : Str) : strLe a a = true := by
  simp [strLe, strLt_irrefl]

theorem strLe_of_lt {a b : Str} (h : strLt a b = true) : strLe a b = true := by
  simp [strLe, strLt_asymm h]

theorem strLe_of_eq {a b : Str} (h : a = b) : strLe a b = true := by
  subst h; exact strLe_refl a

theorem strLt_of_le_of_lt {a b c : Str} (hab : strLe a b = true) (hbc : strLt b c = true) :
    strLt a c = true := by
  simp only [strLe, Bool.not_eq_true'] at hab
  rcases lt_or_eq_of_not_lt hab with h | h
  · exact strLt_trans h hbc
  · subst h; exact hbc

theorem strLt_of_lt_of_le {a b c : Str} (hab : strLt a b = true) (hbc : strLe b c = true) :
    strLt a c = true := by
  simp only [strLe, Bool.not_eq_true'] at hbc
  rcases lt_or_eq_of_not_lt hbc with h | h
  · exact strLt_trans hab h
  · subst h; exact hab

theorem strLe_trans {a b c : Str} (hab : strLe a b = true) (hbc : strLe b c = true) :
    strLe a c = true := by
  simp only [strLe, Bool.not_eq_true'] at hab hbc ⊢
  cases hca : strLt c a with
  | false => rfl
  | true =>
    exfalso
    rcases lt_or_eq_of_not_lt hbc with h | h
    · have hba : strLt b a = true := strLt_trans h hca
      rw [hab] at hba
      exact Bool.false_ne_true hba
    · rw [h] at hab
      rw [hab] at hca
      exact Bool.false_ne_true hca

theorem strLe_smax_left (a b : Str) : strLe a (smax a b) = true := by
  unfold smax
  by_cases h : strLt a b = true
  · simp [h, strLe_of_lt h]
  · simp [Bool.not_eq_true] at h
    simp [h, strLe_refl]

theorem smax_eq_right {a b : Str} (h : strLt a b = true) : smax a b = b := by
  simp [smax, h]

theorem smax_eq_left {a b : Str} (h : strLt a b = false) : smax a b = a := by
  simp [smax, h]

/-- Stable insertion of `x` into a list, before the first element whose key is
not smaller; together with `sortByKey` this is extensionally Python's stable
`sorted(xs, key=f)`. -/
def insertByKey (key : α → Str) (x : α) : List α → List α
  | [] => [x]
  | y :: ys => if strLe (key x) (key y) then x :: y :: ys else y :: insertByKey key x ys

/-- Stable ascending sort by a string key, modelling Python's `sorted`. -/
def sortByKey (key : α → Str) : List α → List α
  | [] => []
  | x :: xs => insertByKey key x (sortByKey key xs)

theorem mem_insertByKey (key : α → Str) (x : α) (l : List α) (a : α) :
    a ∈ insertByKey key x l ↔ a = x ∨ a ∈ l := by
  induction l with
  | nil => simp [insertByKey]
  | cons y ys ih =>
    simp only [insertByKey]
    by_cases h : strLe (key x) (key y) = true
    · simp [h]
    · simp only [if_neg h, List.mem_cons, ih]
      tauto

theorem mem_sortByKey (key : α → Str) (l : List α) (a : α) :
    a ∈ sortByKey key l ↔ a ∈ l := by
  induction l with
  | nil => simp [sortByKey]
  | cons x xs ih => simp [sortByKey, mem_insertByKey, ih]

theorem sortByKey_eq_self (key : α → Str) (l : List α)
    (h : l.Pairwise (fun a b => strLe (key a) (key b) = true)) : sortByKey key l = l := by
  induction l with
  | nil => rfl
  | cons x xs ih =>
    rw [List.pairwise_cons] at h
    rw [sortByKey, ih h.2]
    cases xs with
    | nil => rfl
    | cons y ys =>
      rw [insertByKey, if_pos (h.1 y (List.mem_cons_self y ys))]

/-- Embedding of `_overlap_two_day_slots` (tools.py): for every pair of one
interval from `slots_a` and one from `slots_b`, keep
`[max(s1, s2), min(e1, e2)]` when that start is strictly below that end. -/
def overlap_two_day_slots (slots_a slots_b : List Ivl) : List Ivl :=
  slots_a.flatMap fun p =>
    slots_b.filterMap fun q =>
      let start := smax p.1 q.1
      let e := smin p.2 q.2
      if strLt start e then some (start, e) else none

/-- The sweep loop of `invert_busy_to_free` (tools.py), fused with the final
tail interval: walk the (sorted) busy slots keeping `current = current_start`;
emit `[current, s]` whenever `s > current`; advance
`current := max(current, e)` whenever `e > current`; after the walk emit
`[current, day_end]` if `current < day_end`. -/
def invertSweep (day_end : Str) : Str → List Ivl → List Ivl
  | current, [] => if strLt current day_end then [(current, day_end)] else []
  | current, (s, e) :: rest =>
      (if strLt current s then [(current, s)] else []) ++
      invertSweep day_end (if strLt current e then smax current e else current) rest

/-- Embedding of `invert_busy_to_free` (tools.py): sort the busy slots by
start, then sweep them against the day window. -/
def invert_busy_to_free (busy_slots : List Ivl) (day_start day_end : Str) : List Ivl :=
  invertSweep day_end day_start (sortByKey (fun p => p.1) busy_slots)

/-- Default day window start, `"08:00"` in the source. -/
def dayStartDefault : Str := "08:00".toList

/-- Default day window end, `"22:00"` in the source. -/
def dayEndDefault : Str := "22:00".toList

theorem invertSweep_nil (de cur : Str) :
    invertSweep de cur [] = if strLt cur de then [(cur, de)] else [] := rfl

theorem invertSweep_cons (de cur s e : Str) (rest : List Ivl) :
    invertSweep de cur ((s, e) :: rest) =
      (if strLt cur s then [(cur, s)] else []) ++
      invertSweep de (if strLt cur e then smax cur e else cur) rest := rfl

/-- Intervals listed left to right: each starts at or after `lo`, is nonempty,
and starts at or after the previous end. -/
def IvlChain : Str → List Ivl → Prop
  | _, [] => True
  | lo, (a, b) :: rest => strLe lo a = true ∧ strLt a b = true ∧ IvlChain b rest

theorem IvlChain.mono {lo lo' : Str} {l : List Ivl} (hle : strLe lo' lo = true)
    (h : IvlChain lo l) : IvlChain lo' l := by
  cases l with
  | nil => trivial
  | cons p rest =>
    obtain ⟨a, b⟩ := p
    obtain ⟨h1, h2, h3⟩ := h
    exact ⟨strLe_trans hle h1, h2, h3⟩

theorem IvlChain.mem {lo : Str} {l : List Ivl} (h : IvlChain lo l) :
    ∀ p ∈ l, strLe lo p.1 = true ∧ strLt p.1 p.2 = true := by
  induction l generalizing lo with
  | nil => intro p hp; cases hp
  | cons q rest ih =>
    obtain ⟨a, b⟩ := q
    obtain ⟨h1, h2, h3⟩ := h
    intro p hp
    rcases List.mem_cons.mp hp with hp | hp
    · subst hp; exact ⟨h1, h2⟩
    · have := ih h3 p hp
      exact ⟨strLe_trans (strLe_trans h1 (strLe_of_lt h2)) this.1, this.2⟩

theorem IvlChain.pairwise {lo : Str} {l : List Ivl} (h : IvlChain lo l) :
    l.Pairwise (fun p q => strLe p.2 q.1 = true) := by
  induction l generalizing lo with
  | nil => exact List.Pairwise.nil
  | cons q rest ih =>
    obtain ⟨a, b⟩ := q
    obtain ⟨h1, h2, h3⟩ := h
    exact List.Pairwise.cons (fun p hp => (h3.mem p hp).1) (ih h3)

theorem invertSweep_chain (de : Str) (l : List Ivl) (cur : Str)
    (hlt : ∀ p ∈ l, strLt p.1 p.2 = true) : IvlChain cur (invertSweep de cur l) := by
  induction l generalizing cur with
  | nil =>
    rw [invertSweep_nil]
    by_cases h : strLt cur de = true
    · rw [if_pos h]; exact ⟨strLe_refl cur, h, trivial⟩
    · rw [if_neg h]; trivial
  | cons p rest ih =>
    obtain ⟨s, e⟩ := p
    have hse : strLt s e = true := hlt (s, e) (List.mem_cons_self _ _)
    have hrest : ∀ p ∈ rest, strLt p.1 p.2 = true :=
      fun p hp => hlt p (List.mem_cons_of_mem _ hp)
    rw [invertSweep_cons]
    by_cases hcs : strLt cur s = true
    · have hce : strLt cur e = true := strLt_trans hcs hse
      rw [if_pos hcs, if_pos hce, smax_eq_right hce]
      refine ⟨strLe_refl cur, hcs, ?_⟩
      exact (ih e hrest).mono (strLe_of_lt hse)
    · rw [if_neg hcs, List.nil_append]
      by_cases hce : strLt cur e = true
      · rw [if_pos hce]
        exact (ih (smax cur e) hrest).mono (strLe_smax_left cur e)
      · rw [if_neg hce]
        exact ih cur hrest

theorem invertSweep_le_day_end (de : Str) (l : List Ivl) (cur : Str)
    (hde : ∀ p ∈ l, strLe p.1 de = true) :
    ∀ q ∈ invertSweep de cur l, strLe q.2 de = true := by
  induction l generalizing cur with
  | nil =>
    intro q hq
    rw [invertSweep_nil] at hq
    by_cases h : strLt cur de = true
    · rw [if_pos h, List.mem_singleton] at hq
      subst hq; exact strLe_refl de
    · rw [if_neg h] at hq; cases hq
  | cons p rest ih =>
    obtain ⟨s, e⟩ := p
    intro q hq
    rw [invertSweep_cons, List.mem_append] at hq
    rcases hq with hq | hq
    · by_cases hcs : strLt cur s = true
      · rw [if_pos hcs, List.mem_singleton] at hq
        subst hq
        exact hde (s, e) (List.mem_cons_self _ _)
      · rw [if_neg hcs] at hq; cases hq
    · exact ih _ (fun p hp => hde p (List.mem_cons_of_mem _ hp)) q hq

/-- Busy slots after a previous end `prev`: each starts strictly after the
previous end (non-empty gap), is nonempty, and the last end is at most `de`. -/
def busyGapsFrom (prev de : Str) : List Ivl → Bool
  | [] => strLe prev de
  | (s, e) :: rest => strLt prev s && strLt s e && busyGapsFrom e de rest

/-- Busy slots pairwise non-overlapping with non-empty gaps, sorted by start,
each nonempty, lying within the day window `[ds, de]`. -/
def busyWF (ds de : Str) : List Ivl → Bool
  | [] => true
  | (s, e) :: rest => strLe ds s && strLt s e && busyGapsFrom e de rest

theorem busyGapsFrom_chain {prev de : Str} {l : List Ivl}
    (h : busyGapsFrom prev de l = true) : IvlChain prev l := by
  induction l generalizing prev with
  | nil => trivial
  | cons p rest ih =>
    obtain ⟨s, e⟩ := p
    simp only [busyGapsFrom, Bool.and_eq_true] at h
    exact ⟨strLe_of_lt h.1.1, h.1.2, ih h.2⟩

theorem busyWF_chain {ds de : Str} {l : List Ivl} (h : busyWF ds de l = true) :
    IvlChain ds l := by
  cases l with
  | nil => trivial
  | cons p rest =>
    obtain ⟨s, e⟩ := p
    simp only [busyWF, Bool.and_eq_true] at h
    exact ⟨h.1.1, h.1.2, busyGapsFrom_chain h.2⟩

theorem chain_sortByKey_eq {lo : Str} {l : List Ivl} (h : IvlChain lo l) :
    sortByKey (fun p => p.1) l = l := by
  apply sortByKey_eq_self
  refine h.pairwise.imp_of_mem (fun hp _ hr => ?_)
  exact strLe_trans (strLe_of_lt (h.mem _ hp).2) hr

/-- Claim C3 (amended): if every busy slot is nonempty and starts no later than
the day window's end, the free intervals are nonempty, within the window,
sorted by start and pairwise non-overlapping. -/
theorem C3_free_intervals_wf (busy : List Ivl) (ds de : Str)
    (hlt : ∀ p ∈ busy, strLt p.1 p.2 = true)
    (hde : ∀ p ∈ busy, strLe p.1 de = true) :
    (∀ q ∈ invert_busy_to_free busy ds de,
        strLt q.1 q.2 = true ∧ strLe ds q.1 = true ∧ strLe q.2 de = true) ∧
    (invert_busy_to_free busy ds de).Pairwise (fun p q => strLe p.2 q.1 = true) := by
  have hmemsort : ∀ p ∈ sortByKey (fun p : Ivl => p.1) busy, p ∈ busy :=
    fun p hp => (mem_sortByKey _ _ _).mp hp
  have hchain : IvlChain ds (invert_busy_to_free busy ds de) :=
    invertSweep_chain de _ ds (fun p hp => hlt p (hmemsort p hp))
  refine ⟨fun q hq => ?_, hchain.pairwise⟩
  have h1 := hchain.mem q hq
  have h2 := invertSweep_le_day_end de _ ds (fun p hp => hde p (hmemsort p hp)) q hq
  exact ⟨h1.2, h1.1, h2⟩

/-- Claim C3 is false as stated: the busy slot `["23:00", "23:30"]` satisfies
`start < end` in zero-padded `"HH:MM"` form, yet against the default window
`["08:00", "22:00"]` the produced free interval `["08:00", "23:00"]` ends
after the day window's end. -/
theorem C3_counterexample :
    strLt "23:00".toList "23:30".toList = true ∧
    ("08:00".toList, "23:00".toList) ∈
      invert_busy_to_free [("23:00".toList, "23:30".toList)] "08:00".toList "22:00".toList ∧
    strLe "23:00".toList "22:00".toList = false := by
  decide

/-- Witness for the amended claim C3 at a concrete input. -/
theorem C3_witness :
    (∀ p ∈ [(("09:00".toList : Str), "11:00".toList)], strLt p.1 p.2 = true) ∧
    (∀ p ∈ [(("09:00".toList : Str), "11:00".toList)], strLe p.1 "22:00".toList = true) ∧
    ((∀ q ∈ invert_busy_to_free [("09:00".toList, "11:00".toList)] "08:00".toList "22:00".toList,
        strLt q.1 q.2 = true ∧ strLe "08:00".toList q.1 = true ∧
        strLe q.2 "22:00".toList = true) ∧
      (invert_busy_to_free [("09:00".toList, "11:00".toList)] "08:00".toList
        "22:00".toList).Pairwise (fun p q => strLe p.2 q.1 = true)) :=
  ⟨by decide, by decide,
    C3_free_intervals_wf [("09:00".toList, "11:00".toList)] "08:00".toList "22:00".toList
      (by decide) (by decide)⟩

theorem sweep_sweep_cons (rest : List Ivl) (cur e de : Str)
    (hce : strLt cur e = true) (hch : busyGapsFrom e de rest = true) :
    invertSweep de cur (invertSweep de e rest) = (cur, e) :: rest := by
  induction rest generalizing cur e with
  | nil =>
    simp only [busyGapsFrom, strLe, Bool.not_eq_true'] at hch
    by_cases hed : strLt e de = true
    · rw [invertSweep_nil, if_pos hed, invertSweep_cons, if_pos hce]
      have hcd : strLt cur de = true := strLt_trans hce hed
      rw [if_pos hcd, smax_eq_right hcd, invertSweep_nil, if_neg (by simp [strLt_irrefl])]
      rfl
    · have hede : e = de := by
        cases hx : strLt e de with
        | false => exact eq_of_not_lt_not_lt hx hch
        | true => rw [hx] at hed; exact absurd rfl hed
      subst hede
      rw [invertSweep_nil, if_neg (by simp [strLt_irrefl]), invertSweep_nil, if_pos hce]
  | cons p rest2 ih =>
    obtain ⟨s2, e2⟩ := p
    simp only [busyGapsFrom, Bool.and_eq_true] at hch
    obtain ⟨⟨h1, h2⟩, h3⟩ := hch
    have hee2 : strLt e e2 = true := strLt_trans h1 h2
    rw [invertSweep_cons, if_pos h1, if_pos hee2, smax_eq_right hee2,
      List.singleton_append]
    rw [invertSweep_cons, if_pos hce]
    have hcs2 : strLt cur s2 = true := strLt_trans hce h1
    rw [if_pos hcs2, smax_eq_right hcs2, List.singleton_append]
    rw [ih s2 e2 h2 h3]

theorem sweep_sweep (busy : List Ivl) (ds de : Str) (h : busyWF ds de busy = true) :
    invertSweep de ds (invertSweep de ds busy) = busy := by
  cases busy with
  | nil =>
    by_cases hd : strLt ds de = true
    · rw [invertSweep_nil, if_pos hd, invertSweep_cons, if_neg (by simp [strLt_irrefl])]
      rw [if_pos hd, smax_eq_right hd, invertSweep_nil, if_neg (by simp [strLt_irrefl])]
      rfl
    · rw [invertSweep_nil, if_neg hd, invertSweep_nil, if_neg hd]
  | cons p rest =>
    obtain ⟨s, e⟩ := p
    simp only [busyWF, Bool.and_eq_true] at h
    obtain ⟨⟨h1, h2⟩, h3⟩ := h
    have hde' : strLt ds e = true := strLt_of_le_of_lt h1 h2
    by_cases hds : strLt ds s = true
    · rw [invertSweep_cons, if_pos hds, if_pos hde', smax_eq_right hde']
      rw [List.singleton_append]
      rw [invertSweep_cons, if_neg (by simp [strLt_irrefl]), List.nil_append]
      rw [if_pos hds, smax_eq_right hds]
      exact sweep_sweep_cons rest s e de h2 h3
    · have hdss : ds = s := by
        rcases lt_or_eq_of_not_lt (by simpa [strLe, Bool.not_eq_true'] using h1) with hx | hx
        · rw [hx] at hds; exact absurd rfl hds
        · exact hx
      subst hdss
      rw [invertSweep_cons, if_neg hds, if_pos hde', smax_eq_right hde', List.nil_append]
      exact sweep_sweep_cons rest ds e de h2 h3

/-- Claim C4 (confirmed): for busy slots that are pairwise non-overlapping,
separated by non-empty gaps, sorted by start, nonempty and within the window,
inverting to free intervals and re-inverting the free intervals against the
same window reproduces the original busy list exactly. -/
theorem C4_invert_roundtrip (busy : List Ivl) (ds de : Str)
    (h : busyWF ds de busy = true) :
    invert_busy_to_free (invert_busy_to_free busy ds de) ds de = busy := by
  have hchain : IvlChain ds busy := busyWF_chain h
  have hsort1 : sortByKey (fun p : Ivl => p.1) busy = busy := chain_sortByKey_eq hchain
  have hfree : IvlChain ds (invert_busy_to_free busy ds de) := by
    apply invertSweep_chain
    intro p hp
    exact (hchain.mem p ((mem_sortByKey _ _ _).mp hp)).2
  unfold invert_busy_to_free at hfree ⊢
  rw [hsort1] at hfree ⊢
  rw [chain_sortByKey_eq hfree]
  exact sweep_sweep busy ds de h

/-- Witness for claim C4 at a concrete input: two busy slots inside the
default day window. -/
theorem C4_witness :
    busyWF "08:00".toList "22:00".toList
        [(("09:00".toList : Str), "11:00".toList), ("12:00".toList, "13:30".toList)] = true ∧
    invert_busy_to_free
        (invert_busy_to_free
          [(("09:00".toList : Str), "11:00".toList), ("12:00".toList, "13:30".toList)]
          "08:00".toList "22:00".toList)
        "08:00".toList "22:00".toList =
      [(("09:00".toList : Str), "11:00".toList), ("12:00".toList, "13:30".toList)] :=
  ⟨by decide,
    C4_invert_roundtrip
      [(("09:00".toList : Str), "11:00".toList), ("12:00".toList, "13:30".toList)]
      "08:00".toList "22:00".toList (by decide)⟩

/-- Split a string at its first space, as Python's test `" " in s` followed by
`s.split(" ", 1)`: `none` when no space occurs. -/
def splitFirstSpace : Str → Option (Str × Str)
  | [] => none
  | c :: rest =>
      if c = ' ' then some ([], rest)
      else
        match splitFirstSpace rest with
        | none => none
        | some (a, b) => some (c :: a, b)

/-- Lookup in a Python dict modelled as an insertion-ordered association
list. -/
def alookup [DecidableEq κ] (k : κ) : List (κ × β) → Option β
  | [] => none
  | (k2, v) :: rest => if k2 = k then some v else alookup k rest

/-- Python's `d.setdefault(k, []).append(v)` on an insertion-ordered dict:
append to the existing entry, or add a new key at the end. -/
def setdefaultAppend [DecidableEq κ] (d : List (κ × List β)) (k : κ) (v : β) :
    List (κ × List β) :=
  match d with
  | [] => [(k, [v])]
  | (k2, vs) :: rest =>
      if k2 = k then (k2, vs ++ [v]) :: rest else (k2, vs) :: setdefaultAppend rest k v

/-- A row of the `busy_hours` sqlite table: `(telegram_id, start, duration)`,
with `start` like `"2025-11-10 09:00"` and `duration` an end time `"11:00"`. -/
structure BusyRow where
  telegram_id : Int
  start : Str
  duration : Str
deriving DecidableEq

/-- The `busy_hours` table, rows in insertion order. -/
abbrev BusyDB := List BusyRow

/-- Result of `SELECT start, duration FROM busy_hours WHERE telegram_id = ?`,
in table order. -/
def busyRowsFor (db : BusyDB) (uid : Int) : List (Str × Str) :=
  (db.filter (fun r => r.telegram_id = uid)).map (fun r => (r.start, r.duration))

/-- The grouping loop shared by `get_user_free_slots`,
`get_personal_event_suggestions_db` and `get_user_busy_hours_db`: split each
row's `start` into date and time-of-day at the first space (date `"unknown"`
when there is no space) and collect `[t_start, t_end]` per date, with the end
`t_end` taken verbatim from the `duration` column. -/
def groupBusyByDate (rows : List (Str × Str)) : List (Str × List Ivl) :=
  rows.foldl
    (fun acc row =>
      match splitFirstSpace row.1 with
      | some (date, t_start) => setdefaultAppend acc date (t_start, row.2)
      | none => setdefaultAppend acc "unknown".toList (row.1, row.2))
    []

/-- Embedding of `get_user_free_slots` (agent/agentkit/tools.py): group the
user's busy rows by date, then invert each day's busy list within the default
day window. -/
def get_user_free_slots (db : BusyDB) (uid : Int) : List (Str × List Ivl) :=
  (groupBusyByDate (busyRowsFor db uid)).map
    (fun dayBusy => (dayBusy.1, invert_busy_to_free dayBusy.2 dayStartDefault dayEndDefault))

/-- One step of `find_common_availability`: intersect `common` with one more
user's availability, keeping only dates present in both mappings whose
interval overlap is non-empty.  Python iterates `set(common) & set(av)`,
whose order is unspecified; this model iterates the keys of `common` in
order, which yields the same key/value content. -/
def intersectAvailability (common av : List (Str × List Ivl)) : List (Str × List Ivl) :=
  common.filterMap
    (fun daySlots =>
      match alookup daySlots.1 av with
      | none => none
      | some bs =>
          let ov := overlap_two_day_slots daySlots.2 bs
          if ov.isEmpty then none else some (daySlots.1, ov))

/-- The fold of `find_common_availability` over the users after the first,
with the early break as soon as `common` becomes empty. -/
def commonAvailLoop (slotsOf : κ → List (Str × List Ivl)) :
    List (Str × List Ivl) → List κ → List (Str × List Ivl)
  | common, [] => common
  | common, uid :: rest =>
      let next := intersectAvailability common (slotsOf uid)
      if next.isEmpty then next else commonAvailLoop slotsOf next rest

/-- Embedding of `find_common_availability` (agent/agentkit/tools.py): empty
mapping for no users; otherwise fold the pairwise intersection over the users
after the first, seeded with a deep copy of the first user's free-slot
mapping (deep copying is the identity here). -/
def find_common_availability (db : BusyDB) : List Int → List (Str × List Ivl)
  | [] => []
  | uid :: rest => commonAvailLoop (get_user_free_slots db) (get_user_free_slots db uid) rest

/-- Claim C9 (confirmed): on a single-user list, `find_common_availability`
returns exactly that user's free-slot mapping, same keys, same interval
sequences, same order. -/
theorem C9_single_user_common_availability (db : BusyDB) (u : Int) :
    find_common_availability db [u] = get_user_free_slots db u := rfl

theorem intersectAvailability_values_ne_nil (common av : List (Str × List Ivl)) :
    ∀ p ∈ intersectAvailability common av, p.2 ≠ [] := by
  intro p hp
  rw [intersectAvailability, List.mem_filterMap] at hp
  obtain ⟨q, _, hq⟩ := hp
  rcases hal : alookup q.1 av with _ | bs
  · rw [hal] at hq; cases hq
  · rw [hal] at hq
    by_cases hov : (overlap_two_day_slots q.2 bs).isEmpty = true
    · simp only [hov, if_pos] at hq
      cases hq
    · simp only [hov] at hq
      rw [if_neg (by simp [hov])] at hq
      cases hq
      simpa [List.isEmpty_iff] using hov

theorem commonAvailLoop_values_ne_nil (slotsOf : κ → List (Str × List Ivl))
    (common : List (Str × List Ivl)) (rest : List κ)
    (h : ∀ p ∈ common, p.2 ≠ []) :
    ∀ p ∈ commonAvailLoop slotsOf common rest, p.2 ≠ [] := by
  induction rest generalizing common with
  | nil => exact h
  | cons uid rest ih =>
    rw [commonAvailLoop]
    by_cases he : (intersectAvailability common (slotsOf uid)).isEmpty = true
    · simp only [he, if_pos]
      exact intersectAvailability_values_ne_nil common (slotsOf uid)
    · simp only [he]
      rw [if_neg (by simp [he])]
      exact ih _ (intersectAvailability_values_ne_nil common (slotsOf uid))

/-- Claim C1 (amended): for every list of at least two user ids, every date
key in the mapping returned by `find_common_availability` maps to a non-empty
sequence of intervals; a date with no common overlap is omitted. -/
theorem C1_common_availability_values_nonempty (db : BusyDB) (uids : List Int)
    (h : 2 ≤ uids.length) :
    ∀ day slots, (day, slots) ∈ find_common_availability db uids → slots ≠ [] := by
  match uids with
  | [] => simp at h
  | [u] => simp at h
  | u1 :: u2 :: rest =>
    intro day slots hmem
    rw [find_common_availability, commonAvailLoop] at hmem
    by_cases he :
        (intersectAvailability (get_user_free_slots db u1) (get_user_free_slots db u2)).isEmpty
          = true
    · simp only [he, if_pos] at hmem
      exact intersectAvailability_values_ne_nil _ _ _ hmem
    · simp only [he] at hmem
      rw [if_neg (by simp [he])] at hmem
      exact commonAvailLoop_values_ne_nil _ _ _
        (intersectAvailability_values_ne_nil _ _) _ hmem

/-- Claim C1 is false as stated for single-user lists: a user who is busy for
the whole day window gets that date mapped to the empty interval sequence,
not omitted. -/
theorem C1_counterexample :
    ([(1 : Int)] ≠ []) ∧
    ("2025-11-10".toList, ([] : List Ivl)) ∈
      find_common_availability
        [⟨1, "2025-11-10 08:00".toList, "22:00".toList⟩] [(1 : Int)] := by
  constructor
  · decide
  · decide

/-- Witness for the amended claim C1, at the two-user scenario from the spec:
user 1 busy 09:00–11:00 and user 2 busy 08:00–09:30 on the same date. -/
theorem C1_witness :
    2 ≤ [(1 : Int), 2].length ∧
    (∀ day slots,
        (day, slots) ∈
          find_common_availability
            [⟨1, "2025-11-10 09:00".toList, "11:00".toList⟩,
              ⟨2, "2025-11-10 08:00".toList, "09:30".toList⟩] [(1 : Int), 2] →
        slots ≠ []) :=
  ⟨by decide,
    C1_common_availability_values_nonempty
      [⟨1, "2025-11-10 09:00".toList, "11:00".toList⟩,
        ⟨2, "2025-11-10 08:00".toList, "09:30".toList⟩] [(1 : Int), 2] (by decide)⟩

/-- A `Slot` argument of `update_user_profile_db` (agent/agentkit/tools.py):
the field named `duration` is typed as an `"HH:MM"` string. -/
structure Slot where
  date : Str
  start : Str
  duration : Str
deriving DecidableEq

/-- The busy-hours half of `update_user_profile_db`: optionally delete the
user's rows, then insert one row per slot with
`start = f"{slot.date} {slot.start}"` and the `duration` column stored
verbatim. -/
def update_busy_hours_db (db : BusyDB) (uid : Int) (add_business : List Slot)
    (clear_business : Bool) : BusyDB :=
  let db1 := if clear_business then db.filter (fun r => !(r.telegram_id = uid : Bool)) else db
  db1 ++ add_business.map (fun sl => ⟨uid, sl.date ++ (' ' :: sl.start), sl.duration⟩)

/-- Embedding of `get_user_busy_hours_db` (agent/agentkit/tools.py): the
user's rows ordered by the `start` column (sqlite orders text bytewise, which
on these ASCII strings agrees with `strLt`), each row returned as a
`(start, end)` pair whose `end` is read verbatim from `duration`. -/
def get_user_busy_hours_db (db : BusyDB) (uid : Int) : List (Str × Str) :=
  sortByKey (fun row => row.1) (busyRowsFor db uid)

theorem splitFirstSpace_append (date rest : Str) (h : ' ' ∉ date) :
    splitFirstSpace (date ++ (' ' :: rest)) = some (date, rest) := by
  induction date with
  | nil => simp [splitFirstSpace]
  | cons c cs ih =>
    have hc : ¬ c = ' ' := fun hx => h (List.mem_cons.mpr (Or.inl hx.symm))
    have hcs : ' ' ∉ cs := fun hx => h (List.mem_cons_of_mem c hx)
    rw [List.cons_append, splitFirstSpace, if_neg hc, ih hcs]

theorem alookup_setdefaultAppend [DecidableEq κ] (d : List (κ × List β)) (k : κ) (v : β) :
    alookup k (setdefaultAppend d k v) = some ((alookup k d).getD [] ++ [v]) := by
  induction d with
  | nil => simp [setdefaultAppend, alookup]
  | cons p rest ih =>
    obtain ⟨k2, vs⟩ := p
    by_cases hk : k2 = k
    · subst hk
      simp [setdefaultAppend, alookup]
    · simp [setdefaultAppend, alookup, hk, ih]

theorem alookup_free_map (l : List (Str × List Ivl)) (k : Str) :
    alookup k
        (l.map (fun dayBusy =>
          (dayBusy.1, invert_busy_to_free dayBusy.2 dayStartDefault dayEndDefault))) =
      (alookup k l).map (fun b => invert_busy_to_free b dayStartDefault dayEndDefault) := by
  induction l with
  | nil => rfl
  | cons p rest ih =>
    obtain ⟨k2, v⟩ := p
    by_cases hk : k2 = k
    · subst hk; simp [alookup]
    · simp [alookup, hk, ih]

theorem busyRowsFor_append_own (db : BusyDB) (uid : Int) (r : BusyRow)
    (hr : r.telegram_id = uid) :
    busyRowsFor (db ++ [r]) uid = busyRowsFor db uid ++ [(r.start, r.duration)] := by
  simp [busyRowsFor, List.filter_append, hr]

theorem groupBusyByDate_append_one (rows : List (Str × Str)) (r : Str × Str) :
    groupBusyByDate (rows ++ [r]) =
      match splitFirstSpace r.1 with
      | some (date, t) => setdefaultAppend (groupBusyByDate rows) date (t, r.2)
      | none => setdefaultAppend (groupBusyByDate rows) "unknown".toList (r.1, r.2) := by
  simp only [groupBusyByDate, List.foldl_append, List.foldl_cons, List.foldl_nil]

/-- Claim C10 (confirmed): a busy row inserted by `update_user_profile_db`
with `Slot(date, start, duration)` stores `duration` verbatim; reading back,
`get_user_busy_hours_db` reports the pair `(date ++ " " ++ start, duration)`
with `duration` as the interval's end, and `get_user_free_slots` groups the
interval `(start, duration)` under `date` and inverts that busy list, so
`duration` is the end bound of the busy interval (assuming the date itself
contains no space, as ISO dates do). -/
theorem C10_duration_is_end_bound (db : BusyDB) (uid : Int) (sl : Slot)
    (hdate : ' ' ∉ sl.date) :
    ((sl.date ++ (' ' :: sl.start), sl.duration) ∈
        get_user_busy_hours_db (update_busy_hours_db db uid [sl] false) uid) ∧
    (∃ busy,
      alookup sl.date
          (groupBusyByDate (busyRowsFor (update_busy_hours_db db uid [sl] false) uid)) =
        some busy ∧
      (sl.start, sl.duration) ∈ busy ∧
      alookup sl.date (get_user_free_slots (update_busy_hours_db db uid [sl] false) uid) =
        some (invert_busy_to_free busy dayStartDefault dayEndDefault)) := by
  have hupd :
      update_busy_hours_db db uid [sl] false =
        db ++ [⟨uid, sl.date ++ (' ' :: sl.start), sl.duration⟩] := rfl
  have hrows :
      busyRowsFor (update_busy_hours_db db uid [sl] false) uid =
        busyRowsFor db uid ++ [(sl.date ++ (' ' :: sl.start), sl.duration)] := by
    rw [hupd]
    exact busyRowsFor_append_own db uid _ rfl
  constructor
  · rw [get_user_busy_hours_db, hrows]
    rw [mem_sortByKey]
    exact List.mem_append_right _ (List.mem_singleton.mpr rfl)
  · have hgroup :
        groupBusyByDate (busyRowsFor (update_busy_hours_db db uid [sl] false) uid) =
          setdefaultAppend (groupBusyByDate (busyRowsFor db uid)) sl.date
            (sl.start, sl.duration) := by
      rw [hrows, groupBusyByDate_append_one]
      simp only [splitFirstSpace_append sl.date sl.start hdate]
    refine ⟨(alookup sl.date (groupBusyByDate (busyRowsFor db uid))).getD [] ++
      [(sl.start, sl.duration)], ?_, ?_, ?_⟩
    · rw [hgroup]
      exact alookup_setdefaultAppend _ _ _
    · exact List.mem_append_right _ (List.mem_singleton.mpr rfl)
    · rw [get_user_free_slots, alookup_free_map, hgroup, alookup_setdefaultAppend]
      rfl

/-- Witness for claim C10 at a concrete slot inserted into an empty table. -/
theorem C10_witness :
    (' ' ∉ "2025-11-10".toList) ∧
    ((("2025-11-10".toList ++ (' ' :: "09:00".toList) : Str), "11:00".toList) ∈
        get_user_busy_hours_db
          (update_busy_hours_db [] 7 [⟨"2025-11-10".toList, "09:00".toList, "11:00".toList⟩]
            false) 7) ∧
    (∃ busy,
      alookup "2025-11-10".toList
          (groupBusyByDate (busyRowsFor
            (update_busy_hours_db [] 7
              [⟨"2025-11-10".toList, "09:00".toList, "11:00".toList⟩] false) 7)) =
        some busy ∧
      ("09:00".toList, "11:00".toList) ∈ busy ∧
      alookup "2025-11-10".toList
          (get_user_free_slots
            (update_busy_hours_db [] 7
              [⟨"2025-11-10".toList, "09:00".toList, "11:00".toList⟩] false) 7) =
        some (invert_busy_to_free busy dayStartDefault dayEndDefault)) :=
  ⟨by decide,
    (C10_duration_is_end_bound [] 7 ⟨"2025-11-10".toList, "09:00".toList, "11:00".toList⟩
      (by decide)).1,
    (C10_duration_is_end_bound [] 7 ⟨"2025-11-10".toList, "09:00".toList, "11:00".toList⟩
      (by decide)).2⟩

/-- An event of the in-memory catalog (agentkit/tools.py); the source dict
key `"end"` is the field `«end»`. -/
structure Event where
  id : Str
  name : Str
  date : Str
  tags : List Str
  start : Str
  «end» : Str
deriving DecidableEq

/-- The in-memory per-user record of agentkit/tools.py: a preference set and
an availability dict from date to `[start, end]` slots.  `ensure_user`
installs an empty default, modelled by taking the user table as a total
function. -/
structure UserProfile where
  preferences : Finset Str
  availability : List (Str × List Ivl)

/-- The time-overlap test both matchers run against a free/shared window:
`not (e["end"] <= s or end_ <= e["start"])`. -/
def eventSlotOverlaps (e : Event) (slot : Ivl) : Bool :=
  !(strLe e.«end» slot.1 || strLe slot.2 e.start)

/-- The tag gate `if prefs and not prefs.intersection(e["tags"]): continue`:
`true` exactly when the event must be skipped. -/
def prefSkip (prefs : Finset Str) (tags : List Str) : Bool :=
  decide (prefs ≠ ∅) && !(tags.any (fun t => decide (t ∈ prefs)))

/-- Embedding of `get_personal_event_suggestions` (agentkit/tools.py): keep
catalog events passing the tag gate whose date is a key of the user's
availability and where some slot of that date overlaps the event window. -/
def get_personal_event_suggestions (users : Str → UserProfile) (events : List Event)
    (user_id : Str) : List Event :=
  events.filter (fun e =>
    !(prefSkip (users user_id).preferences e.tags) &&
    match alookup e.date (users user_id).availability with
    | none => false
    | some slots => slots.any (fun slot => eventSlotOverlaps e slot))

/-- The catalog installed by `refresh_events_catalog` (agentkit/tools.py). -/
def refreshedEvents : List Event :=
  [⟨"e1".toList, "Evening Run in the Park".toList, "2025-11-10".toList,
      ["sport".toList], "18:00".toList, "20:00".toList⟩,
    ⟨"e2".toList, "Tech Meetup: AI & Pizza".toList, "2025-11-10".toList,
      ["meetups".toList, "tech".toList], "19:00".toList, "21:00".toList⟩,
    ⟨"e3".toList, "Live Jazz Concert".toList, "2025-11-11".toList,
      ["music".toList], "20:00".toList, "22:00".toList⟩]

/-- The third catalog event: the jazz concert, 20:00–22:00 on 2025-11-11. -/
def jazzEvent : Event :=
  ⟨"e3".toList, "Live Jazz Concert".toList, "2025-11-11".toList,
    ["music".toList], "20:00".toList, "22:00".toList⟩

/-- A user table where every user likes music and is free in the given window
on 2025-11-11. -/
def musicListener (window : Ivl) : Str → UserProfile :=
  fun _ => ⟨{"music".toList}, [("2025-11-11".toList, [window])]⟩

/-- Claim C5 (confirmed): an event window `[eStart, eEnd]` is attendable
against a window `[s, e]` exactly when not (`eEnd <= s` or `e <= eStart`);
boundary touching does not match, so the jazz event (20:00–22:00) is not
matched for a user free 19:00–20:00 on its date but is matched for one free
19:00–20:01. -/
theorem C5_overlap_rule :
    (∀ (e : Event) (slot : Ivl),
        eventSlotOverlaps e slot = true ↔
          ¬(strLe e.«end» slot.1 = true ∨ strLe slot.2 e.start = true)) ∧
    jazzEvent ∉
      get_personal_event_suggestions (musicListener ("19:00".toList, "20:00".toList))
        refreshedEvents "alice".toList ∧
    jazzEvent ∈
      get_personal_event_suggestions (musicListener ("19:00".toList, "20:01".toList))
        refreshedEvents "alice".toList := by
  refine ⟨fun e slot => ?_, by decide, by decide⟩
  simp [eventSlotOverlaps, not_or]

/-- Python's `set.intersection(*sets)` folded from the first set; the source
guards the empty family, for which this returns the empty set. -/
def intersectAll : List (Finset Str) → Finset Str
  | [] => ∅
  | s :: rest => rest.foldl (fun acc t => acc ∩ t) s

/-- Embedding of the shared-preference computation used by both joint
suggestion tools: `set.intersection(*prefs_sets) if all(prefs_sets) else
set()`, where a set is truthy exactly when non-empty. -/
def sharedPreferences (prefs_sets : List (Finset Str)) : Finset Str :=
  if prefs_sets.all (fun s => decide s.Nonempty) then intersectAll prefs_sets else ∅

theorem foldl_inter_mem (s : Finset Str) (rest : List (Finset Str)) (x : Str) :
    x ∈ rest.foldl (fun acc t => acc ∩ t) s ↔ x ∈ s ∧ ∀ t ∈ rest, x ∈ t := by
  induction rest generalizing s with
  | nil => simp
  | cons t ts ih =>
    rw [List.foldl_cons, ih]
    simp only [Finset.mem_inter, List.mem_cons]
    constructor
    · rintro ⟨⟨hs, ht⟩, hts⟩
      exact ⟨hs, fun u hu => by rcases hu with rfl | hu; exact ht; exact hts u hu⟩
    · rintro ⟨hs, hall⟩
      exact ⟨⟨hs, hall t (Or.inl rfl)⟩, fun u hu => hall u (Or.inr hu)⟩

/-- Claim C6 (confirmed): for a non-empty family of preference sets, the
shared preferences are the set-intersection of all of them when every set is
non-empty, and the empty set as soon as one of them is empty. -/
theorem C6_shared_preferences (sets : List (Finset Str)) (h : sets ≠ []) :
    ((∀ s ∈ sets, s.Nonempty) →
      ∀ x, x ∈ sharedPreferences sets ↔ ∀ s ∈ sets, x ∈ s) ∧
    ((∃ s ∈ sets, s = ∅) → sharedPreferences sets = ∅) := by
  constructor
  · intro hne x
    have hall : sets.all (fun s => decide s.Nonempty) = true := by
      rw [List.all_eq_true]
      intro s hs
      simpa using hne s hs
    rw [sharedPreferences, if_pos hall]
    match sets, h with
    | s :: rest, _ =>
      rw [intersectAll, foldl_inter_mem]
      simp [List.mem_cons]
  · rintro ⟨s, hs, rfl⟩
    have hall : sets.all (fun s => decide s.Nonempty) = false := by
      rw [List.all_eq_false]
      exact ⟨∅, hs, by simp⟩
    rw [sharedPreferences, hall]
    rfl

/-- Witness for claim C6 at two concrete non-empty sets and at a family
containing an empty set. -/
theorem C6_witness :
    ([{"tech".toList}, {"tech".toList, "music".toList}] : List (Finset Str)) ≠ [] ∧
    (((∀ s ∈ ([{"tech".toList}, {"tech".toList, "music".toList}] : List (Finset Str)),
          s.Nonempty) →
        ∀ x, x ∈ sharedPreferences [{"tech".toList}, {"tech".toList, "music".toList}] ↔
          ∀ s ∈ ([{"tech".toList}, {"tech".toList, "music".toList}] : List (Finset Str)),
            x ∈ s) ∧
      ((∃ s ∈ ([{"tech".toList}, {"tech".toList, "music".toList}] : List (Finset Str)),
          s = ∅) →
        sharedPreferences [{"tech".toList}, {"tech".toList, "music".toList}] = ∅)) :=
  ⟨List.cons_ne_nil _ _,
    C6_shared_preferences [{"tech".toList}, {"tech".toList, "music".toList}]
      (List.cons_ne_nil _ _)⟩

/-- Python's `str.lower()` on the ASCII tags used here. -/
def strLower (s : Str) : Str := s.map Char.toLower

/-- The preference update shared by `update_user_profile_db` and the
in-memory `update_user_profile`: every truthy (non-empty) tag in
`add_preferences` is lowercased and added to the loaded set, then every
truthy tag in `remove_preferences` is lowercased and discarded. -/
def applyPreferenceUpdates (existing : Finset Str)
    (add_preferences remove_preferences : List Str) : Finset Str :=
  let afterAdd := add_preferences.foldl
    (fun acc p => if p ≠ [] then insert (strLower p) acc else acc) existing
  remove_preferences.foldl
    (fun acc p => if p ≠ [] then acc.erase (strLower p) else acc) afterAdd

theorem mem_foldl_insert_lower (adds : List Str) (acc : Finset Str) (x : Str) :
    (x ∈ adds.foldl (fun acc p => if p ≠ [] then insert (strLower p) acc else acc) acc) ↔
      x ∈ acc ∨ ∃ p ∈ adds, p ≠ [] ∧ x = strLower p := by
  induction adds generalizing acc with
  | nil => simp
  | cons p ps ih =>
    rw [List.foldl_cons]
    by_cases hp : p = []
    · subst hp
      rw [if_neg (by simp)]
      rw [ih]
      simp
    · rw [if_pos (by simpa using hp), ih]
      simp only [Finset.mem_insert, List.mem_cons]
      constructor
      · rintro (⟨h | h⟩ | ⟨q, hq, hq2, hq3⟩)
        · exact Or.inr ⟨p, Or.inl rfl, hp, h⟩
        · exact Or.inl h
        · exact Or.inr ⟨q, Or.inr hq, hq2, hq3⟩
      · rintro (h | ⟨q, hq | hq, hq2, hq3⟩)
        · exact Or.inl (Or.inr h)
        · subst hq; exact Or.inl (Or.inl hq3)
        · exact Or.inr ⟨q, hq, hq2, hq3⟩

theorem mem_foldl_erase_lower (removes : List Str) (acc : Finset Str) (x : Str) :
    (x ∈ removes.foldl (fun acc p => if p ≠ [] then acc.erase (strLower p) else acc) acc) ↔
      x ∈ acc ∧ ∀ p ∈ removes, p ≠ [] → x ≠ strLower p := by
  induction removes generalizing acc with
  | nil => simp
  | cons p ps ih =>
    rw [List.foldl_cons]
    by_cases hp : p = []
    · subst hp
      rw [if_neg (by simp), ih]
      simp
    · rw [if_pos (by simpa using hp), ih]
      simp only [Finset.mem_erase, List.mem_cons]
      constructor
      · rintro ⟨⟨hne, hmem⟩, hall⟩
        refine ⟨hmem, fun q hq hq2 => ?_⟩
        rcases hq with rfl | hq
        · exact hne
        · exact hall q hq hq2
      · rintro ⟨hmem, hall⟩
        exact ⟨⟨hall p (Or.inl rfl) hp, hmem⟩, fun q hq hq2 => hall q (Or.inr hq) hq2⟩

/-- Claim C7 (confirmed): `updatePreferences` adds all lowercased truthy tags
first and removes all lowercased truthy tags afterwards, so a tag in both
lists ends up absent; re-adding a present tag and removing an absent tag are
no-ops; and adding `["Sport", "TECH"]` while removing `["sport"]` from an
empty set stores exactly `{"tech"}`. -/
theorem C7_update_preferences :
    (∀ (existing : Finset Str) (adds removes : List Str) (x : Str),
        x ∈ applyPreferenceUpdates existing adds removes ↔
          ((x ∈ existing ∨ ∃ p ∈ adds, p ≠ [] ∧ x = strLower p) ∧
            ∀ p ∈ removes, p ≠ [] → x ≠ strLower p)) ∧
    (∀ (existing : Finset Str) (adds removes : List Str) (t : Str),
        t ∈ removes → t ≠ [] →
        strLower t ∉ applyPreferenceUpdates existing adds removes) ∧
    (∀ (existing : Finset Str) (t : Str), t ≠ [] → strLower t ∈ existing →
        applyPreferenceUpdates existing [t] [] = existing) ∧
    (∀ (existing : Finset Str) (t : Str), t ≠ [] → strLower t ∉ existing →
        applyPreferenceUpdates existing [] [t] = existing) ∧
    applyPreferenceUpdates ∅ ["Sport".toList, "TECH".toList] ["sport".toList] =
      {"tech".toList} := by
  have hchar :
      ∀ (existing : Finset Str) (adds removes : List Str) (x : Str),
        x ∈ applyPreferenceUpdates existing adds removes ↔
          ((x ∈ existing ∨ ∃ p ∈ adds, p ≠ [] ∧ x = strLower p) ∧
            ∀ p ∈ removes, p ≠ [] → x ≠ strLower p) := by
    intro existing adds removes x
    rw [applyPreferenceUpdates, mem_foldl_erase_lower, mem_foldl_insert_lower]
  refine ⟨hchar, ?_, ?_, ?_, ?_⟩
  · intro existing adds removes t ht ht2 hmem
    rcases (hchar existing adds removes (strLower t)).mp hmem with ⟨_, hall⟩
    exact hall t ht ht2 rfl
  · intro existing t h1 h2
    rw [applyPreferenceUpdates]
    simp only [List.foldl_cons, List.foldl_nil]
    rw [if_pos (by simpa using h1)]
    exact Finset.insert_eq_self.mpr h2
  · intro existing t h1 h2
    rw [applyPreferenceUpdates]
    simp only [List.foldl_cons, List.foldl_nil]
    rw [if_pos (by simpa using h1)]
    exact Finset.erase_eq_of_not_mem h2
  · decide

/-- Witness for claim C7: the no-op clauses instantiated at the stored set
`{"tech"}` with the present tag `"Tech"` and the absent tag `"sport"`. -/
theorem C7_witness :
    ("Tech".toList ≠ ([] : Str)) ∧ strLower "Tech".toList ∈ ({"tech".toList} : Finset Str) ∧
    ("sport".toList ≠ ([] : Str)) ∧
    strLower "sport".toList ∉ ({"tech".toList} : Finset Str) ∧
    applyPreferenceUpdates {"tech".toList} ["Tech".toList] [] = {"tech".toList} ∧
    applyPreferenceUpdates {"tech".toList} [] ["sport".toList] = {"tech".toList} :=
  ⟨by decide, by decide, by decide, by decide,
    C7_update_preferences.2.2.1 {"tech".toList} "Tech".toList (by decide) (by decide),
    C7_update_preferences.2.2.2.1 {"tech".toList} "sport".toList (by decide) (by decide)⟩

/-- Result of a tool call at the dispatch boundary: either the structured
`{"error": ...}` payload or the successful summary. -/
inductive ToolResult (α : Type) where
  | error (msg : Str)
  | ok (payload : α)

/-- The summary returned by `get_joint_event_suggestions` on success. -/
structure JointSuggestions where
  user_ids : List Str
  shared_preferences : Finset Str
  shared_availability_days : List Str
  events : List Event

/-- Embedding of the in-memory `find_common_availability`
(agentkit/tools.py): the same fold as the database variant, but seeded and
stepped with the stored availability mappings directly. -/
def find_common_availability_mem (users : Str → UserProfile) :
    List Str → List (Str × List Ivl)
  | [] => []
  | uid :: rest =>
      commonAvailLoop (fun u => (users u).availability) ((users uid).availability) rest

/-- Embedding of `get_joint_event_suggestions` (agentkit/tools.py): fewer
than two user ids yields the structured error payload (the embedding is a
total function, so no exception can cross the tool boundary); otherwise
intersect preferences and availability and filter the catalog with the
shared tag gate and the shared-window overlap rule. -/
def get_joint_event_suggestions (users : Str → UserProfile) (events : List Event)
    (user_ids : List Str) : ToolResult JointSuggestions :=
  if user_ids.length < 2 then
    .error "Provide at least two user_ids to get joint suggestions.".toList
  else
    let shared_prefs := sharedPreferences (user_ids.map (fun uid => (users uid).preferences))
    let common_av := find_common_availability_mem users user_ids
    .ok
      ⟨user_ids, shared_prefs,
        sortByKey (fun d => d) (common_av.map (fun p => p.1)),
        events.filter (fun e =>
          !(prefSkip shared_prefs e.tags) &&
          match alookup e.date common_av with
          | none => false
          | some slots => slots.any (fun slot => eventSlotOverlaps e slot))⟩

/-- Claim C8 (confirmed): a joint-suggestion request with fewer than two user
ids returns the structured error payload; the embedded operation is total,
so no exception crosses the tool boundary. -/
theorem C8_joint_requires_two_users (users : Str → UserProfile) (events : List Event)
    (user_ids : List Str) (h : user_ids.length < 2) :
    get_joint_event_suggestions users events user_ids =
      .error "Provide at least two user_ids to get joint suggestions.".toList := by
  rw [get_joint_event_suggestions, if_pos h]

/-- Witness for claim C8: a single-user request against the refreshed
catalog. -/
theorem C8_witness :
    [("alice".toList : Str)].length < 2 ∧
    get_joint_event_suggestions (musicListener ("19:00".toList, "20:00".toList))
        refreshedEvents [("alice".toList : Str)] =
      .error "Provide at least two user_ids to get joint suggestions.".toList :=
  ⟨by decide,
    C8_joint_requires_two_users (musicListener ("19:00".toList, "20:00".toList))
      refreshedEvents [("alice".toList : Str)] (by decide)⟩

/-- A retrieval result of `get_nearest_events`: document content, the
metadata fields used by the suggestion tools, and a similarity score (a
Python float, modelled as a rational). -/
structure RagResult where
  content : Str
  event_title : Str
  event_date : Str
  source_url : Str
  score : ℚ

/-- A suggestion entry as built by both database-backed suggestion tools. -/
structure SuggestedEvent where
  event_title : Str
  event_date : Str
  source_url : Str
  description : Str
  similarity_score : ℚ

/-- Python's `round(x, 4)` modelled on rationals: round half up at four
decimal places (floats round half to even; every claim proved below uses
only order comparisons of rounded scores, never ties at the fifth decimal). -/
def round4 (q : ℚ) : ℚ := (⌊q * 10000 + 1/2⌋ : ℚ) / 10000

/-- Python's `str.strip()`: drop leading and trailing whitespace. -/
def strTrim (s : Str) : Str :=
  ((s.dropWhile Char.isWhitespace).reverse.dropWhile Char.isWhitespace).reverse

/-- The dedup key `(title.strip().lower(), date.strip().lower())` used by
both database-backed suggestion tools. -/
def normKey (r : RagResult) : Str × Str :=
  (strLower (strTrim r.event_title), strLower (strTrim r.event_date))

/-- The suggestion entry built from a retrieval result, with the score
rounded to four decimal places. -/
def mkSuggested (r : RagResult) : SuggestedEvent :=
  ⟨r.event_title, r.event_date, r.source_url, r.content, round4 r.score⟩

/-- The dedup loop of `get_personal_event_suggestions_db`
(agent/agentkit/tools.py): skip any result whose key is already in `seen`,
so the first occurrence of each key is the one kept. -/
def personalDedup : List RagResult → List (Str × Str) → List SuggestedEvent
  | [], _ => []
  | r :: rest, seen =>
      if normKey r ∈ seen then personalDedup rest seen
      else mkSuggested r :: personalDedup rest (normKey r :: seen)

/-- One step of the dedup dict of `get_joint_event_suggestions_db`
(agent/agentkit/tools.py): a new key is appended at the end; an existing key
is replaced in place only when the new rounded score is strictly higher. -/
def jointInsert (acc : List ((Str × Str) × SuggestedEvent)) (r : RagResult) :
    List ((Str × Str) × SuggestedEvent) :=
  match acc with
  | [] => [(normKey r, mkSuggested r)]
  | (k, ev) :: rest =>
      if k = normKey r then
        if round4 r.score > ev.similarity_score then (k, mkSuggested r) :: rest
        else (k, ev) :: rest
      else (k, ev) :: jointInsert rest r

/-- The full dedup fold of `get_joint_event_suggestions_db` over the
retrieval results. -/
def jointDedup : List ((Str × Str) × SuggestedEvent) → List RagResult →
    List ((Str × Str) × SuggestedEvent)
  | acc, [] => acc
  | acc, r :: rest => jointDedup (jointInsert acc r) rest

theorem alookup_jointInsert (acc : List ((Str × Str) × SuggestedEvent)) (r : RagResult)
    (k : Str × Str) :
    alookup k (jointInsert acc r) =
      if k = normKey r then
        match alookup k acc with
        | none => some (mkSuggested r)
        | some ev =>
            if round4 r.score > ev.similarity_score then some (mkSuggested r) else some ev
      else alookup k acc := by
  induction acc with
  | nil =>
    by_cases hk : k = normKey r
    · subst hk
      simp [jointInsert, alookup]
    · simp [jointInsert, alookup, hk, Ne.symm hk]
  | cons p rest ih =>
    obtain ⟨k2, ev2⟩ := p
    by_cases h2 : k2 = normKey r
    · subst h2
      by_cases hk : k = normKey r
      · subst hk
        by_cases hgt : round4 r.score > ev2.similarity_score
        · simp [jointInsert, alookup, hgt]
        · simp [jointInsert, alookup, hgt]
      · have hk2 : normKey r ≠ k := Ne.symm hk
        by_cases hgt : round4 r.score > ev2.similarity_score
        · simp [jointInsert, alookup, hgt, hk, hk2]
        · simp [jointInsert, alookup, hgt, hk, hk2]
    · by_cases hk2k : k2 = k
      · subst hk2k
        have hkr : ¬ k2 = normKey r := h2
        simp [jointInsert, alookup, h2, hkr]
      · simp [jointInsert, alookup, h2, hk2k, ih]

theorem jointDedup_lookup (l : List RagResult) (acc : List ((Str × Str) × SuggestedEvent))
    (k : Str × Str) (ev : SuggestedEvent)
    (h : alookup k (jointDedup acc l) = some ev) :
    (alookup k acc = some ev ∨ ∃ r ∈ l, normKey r = k ∧ ev = mkSuggested r) ∧
    (∀ ev0, alookup k acc = some ev0 → ev0.similarity_score ≤ ev.similarity_score) ∧
    (∀ r ∈ l, normKey r = k → round4 r.score ≤ ev.similarity_score) := by
  induction l generalizing acc with
  | nil =>
    rw [jointDedup] at h
    refine ⟨Or.inl h, fun ev0 h0 => ?_, fun r hr => absurd hr (List.not_mem_nil r)⟩
    rw [h] at h0
    cases h0
    exact le_refl _
  | cons r rest ih =>
    rw [jointDedup] at h
    obtain ⟨H1, H2, H3⟩ := ih (jointInsert acc r) h
    have L := alookup_jointInsert acc r k
    by_cases hk : k = normKey r
    · rw [if_pos hk] at L
      refine ⟨?_, ?_, ?_⟩
      · rcases H1 with H1 | ⟨r2, hr2, hr2k, hr2ev⟩
        · have M := L.symm.trans H1
          rcases ha : alookup k acc with _ | ev0
          · simp only [ha] at M
            exact Or.inr ⟨r, List.mem_cons_self r rest, hk.symm, (Option.some.inj M).symm⟩
          · simp only [ha] at M
            by_cases hgt : round4 r.score > ev0.similarity_score
            · rw [if_pos hgt] at M
              exact Or.inr ⟨r, List.mem_cons_self r rest, hk.symm, (Option.some.inj M).symm⟩
            · rw [if_neg hgt] at M
              exact Or.inl M
        · exact Or.inr ⟨r2, List.mem_cons_of_mem r hr2, hr2k, hr2ev⟩
      · intro ev1 h1
        simp only [h1] at L
        by_cases hgt : round4 r.score > ev1.similarity_score
        · rw [if_pos hgt] at L
          have hmk := H2 (mkSuggested r) L
          simp only [mkSuggested] at hmk
          exact le_trans (le_of_lt hgt) hmk
        · rw [if_neg hgt] at L
          exact H2 ev1 L
      · intro r2 hr2 hr2k
        rcases List.mem_cons.mp hr2 with hr2 | hr2
        · subst hr2
          rcases ha : alookup k acc with _ | ev0
          · simp only [ha] at L
            have hmk := H2 (mkSuggested r2) L
            simpa [mkSuggested] using hmk
          · simp only [ha] at L
            by_cases hgt : round4 r2.score > ev0.similarity_score
            · rw [if_pos hgt] at L
              have hmk := H2 (mkSuggested r2) L
              simpa [mkSuggested] using hmk
            · rw [if_neg hgt] at L
              exact le_trans (not_lt.mp hgt) (H2 ev0 L)
        · exact H3 r2 hr2 hr2k
    · rw [if_neg hk] at L
      refine ⟨?_, ?_, ?_⟩
      · rcases H1 with H1 | ⟨r2, hr2, hr2k, hr2ev⟩
        · exact Or.inl (L.symm.trans H1)
        · exact Or.inr ⟨r2, List.mem_cons_of_mem r hr2, hr2k, hr2ev⟩
      · intro ev1 h1
        exact H2 ev1 (L.trans h1)
      · intro r2 hr2 hr2k
        rcases List.mem_cons.mp hr2 with hr2 | hr2
        · subst hr2
          exact absurd hr2k.symm hk
        · exact H3 r2 hr2 hr2k

theorem personalDedup_keeps_first (l : List RagResult) (seen : List (Str × Str))
    (k : Str × Str) (r0 : RagResult) (hk : k ∉ seen)
    (hfind : l.find? (fun r => decide (normKey r = k)) = some r0) :
    mkSuggested r0 ∈ personalDedup l seen := by
  induction l generalizing seen with
  | nil => simp [List.find?] at hfind
  | cons r rest ih =>
    by_cases hr : normKey r = k
    · rw [List.find?_cons_of_pos _ (by simpa using hr)] at hfind
      cases hfind
      rw [personalDedup, if_neg (fun hmem => hk (hr ▸ hmem))]
      exact List.mem_cons_self _ _
    · rw [List.find?_cons_of_neg _ (by simpa using hr)] at hfind
      rw [personalDedup]
      by_cases hs : normKey r ∈ seen
      · rw [if_pos hs]
        exact ih seen hk hfind
      · rw [if_neg hs]
        refine List.mem_cons_of_mem _ (ih (normKey r :: seen) ?_ hfind)
        intro hmem
        rcases List.mem_cons.mp hmem with hx | hx
        · exact hr hx.symm
        · exact hk hx

/-- Claim C2 (amended): in the joint retrieval-backed operation candidates
are deduplicated by `(title.strip().lower(), date.strip().lower())` and the
kept entry comes from a colliding candidate and carries the maximum rounded
score among all candidates with that key; the personal operation dedups by
the same key but keeps the first occurrence in retrieval order, regardless
of score. -/
theorem C2_dedup_policy :
    (∀ (l : List RagResult) (k : Str × Str) (ev : SuggestedEvent),
        alookup k (jointDedup [] l) = some ev →
          (∃ r ∈ l, normKey r = k ∧ ev = mkSuggested r) ∧
          ∀ r ∈ l, normKey r = k → round4 r.score ≤ ev.similarity_score) ∧
    (∀ (l : List RagResult) (k : Str × Str) (r0 : RagResult),
        l.find? (fun r => decide (normKey r = k)) = some r0 →
        mkSuggested r0 ∈ personalDedup l []) := by
  constructor
  · intro l k ev h
    obtain ⟨H1, _, H3⟩ := jointDedup_lookup l [] k ev h
    refine ⟨?_, H3⟩
    rcases H1 with H1 | H1
    · cases H1
    · exact H1
  · intro l k r0 hfind
    exact personalDedup_keeps_first l [] k r0 (List.not_mem_nil k) hfind

theorem floor_half_q : ⌊(1 : ℚ)/2⌋ = 0 := by
  rw [Int.floor_eq_iff]
  norm_num

theorem round4_zero : round4 0 = 0 := by
  unfold round4
  norm_num [floor_half_q]

theorem round4_one : round4 1 = 1 := by
  unfold round4
  have h1 : (1 : ℚ) * 10000 + 1/2 = 1/2 + (10000 : ℤ) := by push_cast; ring
  rw [h1, Int.floor_add_int, floor_half_q]
  norm_num

/-- A retrieval result with the lower score, arriving first. -/
def ragFirst : RagResult :=
  ⟨"first description".toList, "Live Jazz Concert".toList, "Tue, Nov 11, 8:00 PM".toList,
    "u1".toList, 0⟩

/-- A colliding retrieval result (same title and date after trimming and
lowercasing) with a strictly higher score, arriving second. -/
def ragSecond : RagResult :=
  ⟨"second description".toList, "Live Jazz Concert".toList, "Tue, Nov 11, 8:00 PM".toList,
    "u2".toList, 1⟩

/-- Claim C2 is false as stated: in the personal retrieval-backed operation a
key collision keeps the first occurrence even when a later duplicate has a
strictly higher similarity score. -/
theorem C2_counterexample :
    normKey ragFirst = normKey ragSecond ∧
    ragFirst.score < ragSecond.score ∧
    round4 ragFirst.score < round4 ragSecond.score ∧
    personalDedup [ragFirst, ragSecond] [] = [mkSuggested ragFirst] := by
  refine ⟨by decide, by norm_num [ragFirst, ragSecond], ?_, rfl⟩
  show round4 (0 : ℚ) < round4 1
  rw [round4_zero, round4_one]
  norm_num

/-- Witness for the amended claim C2: the joint clause at a single-result
list and the personal clause at a single-result list. -/
theorem C2_witness :
    (alookup (normKey ragFirst) (jointDedup [] [ragFirst]) = some (mkSuggested ragFirst)) ∧
    ((∃ r ∈ [ragFirst], normKey r = normKey ragFirst ∧ mkSuggested ragFirst = mkSuggested r) ∧
      ∀ r ∈ [ragFirst], normKey r = normKey ragFirst →
        round4 r.score ≤ (mkSuggested ragFirst).similarity_score) ∧
    ([ragSecond].find? (fun r => decide (normKey r = normKey ragSecond)) = some ragSecond) ∧
    mkSuggested ragSecond ∈ personalDedup [ragSecond] [] :=
  ⟨rfl, C2_dedup_policy.1 [ragFirst] (normKey ragFirst) (mkSuggested ragFirst) rfl,
    rfl, C2_dedup_policy.2 [ragSecond] (normKey ragSecond) ragSecond rfl⟩

end Planner
